import Mathlib

/-!
Verification of the Host-Site floor coordinator specification.

The repository ships only the thin polling client (`static/script.js`).
The core floor coordinator (table state machine, waitlist queue, server
roster and load balancer) is described by the specification but its code
is not present under `src/`; those components are modelled here from the
spec's words.  The client-side helpers (`formatDuration`, `renderWaitlist`)
are embedded directly from `static/script.js`.
-/

namespace HostSite

/-- Table status, one of free / seated / dirty / waiting (spec section 3). -/
inductive TableStatus
  | free
  | seated
  | dirty
  | waiting
deriving DecidableEq, Repr

/-- Modelled from the spec: the Table record of section 3 (the Table

Registry code is not in `src/`).  Timestamps are abstract `Nat`

milliseconds. -/
structure Table where
  id : String
  name : String
  sectionName : String
  seats : Nat
  status : TableStatus
  server : Option String
  seated_at : Option Nat
  notes : String
deriving DecidableEq, Repr

/-- Modelled from the spec: the WaitlistEntry record of section 3 (the

Waitlist Queue code is not in `src/`). -/
structure WaitEntry where
  id : Nat
  name : String
  party : Nat
  notes : String
  added_at : Nat
deriving DecidableEq, Repr

/-- Rotation mode (spec section 3): round_robin or least_loaded. -/
inductive RotationMode
  | round_robin
  | least_loaded
deriving DecidableEq, Repr

/-- Modelled from the spec: the cohesive floor state owned by the Floor

Coordinator (section 9): table registry, waitlist queue in FIFO order,

server roster, rotation mode, and the never-reused next waitlist id. -/
structure FloorState where
  tables : List Table
  waitlist : List WaitEntry
  servers : List String
  rotation : RotationMode
  nextWaitId : Nat
deriving DecidableEq, Repr

/-- Error taxonomy of spec section 7. -/
inductive Err
  | NotFound
  | Conflict
  | InvalidInput
deriving DecidableEq, Repr

/-- Modelled from the spec: Table Registry `get(id)` (section 4.1),

first table with the given id. -/
def findTable (st : FloorState) (tid : String) : Option Table :=
  st.tables.find? (fun t => t.id == tid)

/-- Update the first table with the given id, leaving every other table

untouched (section 4.1: all mutators update exactly one table's fields). -/
def updFirst (f : Table → Table) (tid : String) : List Table → List Table
  | [] => []
  | t :: ts => if t.id == tid then f t :: ts else t :: updFirst f tid ts

/-- Apply a field update to the (first) table with the given id. -/
def updTable (st : FloorState) (tid : String) (f : Table → Table) : FloorState :=
  { st with tables := updFirst f tid st.tables }

/-- Statuses from which seating is allowed (spec section 4.5:

status ∈ \x7bfree, dirty, waiting\x7d). -/
def seatable : TableStatus → Bool
  | .free => true
  | .dirty => true
  | .waiting => true
  | .seated => false

/-- Modelled from the spec: Waitlist Queue `dequeue(id)` (section 4.2),

atomic remove-and-return; `none` when the entry no longer exists. -/
def dequeueWait (wl : List WaitEntry) (wid : Nat) :
    Option (WaitEntry × List WaitEntry) :=
  match wl.find? (fun w => w.id == wid) with
  | none => none
  | some w => some (w, wl.filter (fun x => x.id != wid))

/-- The field update a successful seat applies to the target table

(section 4.5): status=seated, seated_at=now, server/notes if provided

else unchanged. -/
def seatFields (server : Option String) (notes : Option String) (now : Nat)
    (t : Table) : Table :=
  { t with status := .seated, seated_at := some now,
           server := match server with | some s => some s | none => t.server,
           notes := notes.getD t.notes }

/-- Modelled from the spec: `seat(tableId, waitId?, server?, notes?)`

(section 4.5, Floor Coordinator code not in `src/`).  Requires the table

to exist (NotFound) and its status to be seatable (Conflict); when a

waitId is given the matching waitlist entry is dequeued atomically and

the whole operation fails with NotFound, mutating nothing, if that entry

no longer exists. -/
def seatTable (st : FloorState) (tid : String) (waitId : Option Nat)
    (server : Option String) (notes : Option String) (now : Nat) :
    Except Err FloorState :=
  match findTable st tid with
  | none => .error .NotFound
  | some t =>
    if seatable t.status then
      match waitId with
      | none => .ok (updTable st tid (seatFields server notes now))
      | some wid =>
        match dequeueWait st.waitlist wid with
        | none => .error .NotFound
        | some (_, wl) =>
          .ok { updTable st tid (seatFields server notes now) with waitlist := wl }
    else .error .Conflict

/-- Modelled from the spec: `bus(tableId)` (section 4.5): requires

status=seated, transitions to dirty, clears seated_at, preserves the

server assignment. -/
def busTable (st : FloorState) (tid : String) : Except Err FloorState :=
  match findTable st tid with
  | none => .error .NotFound
  | some t =>
    if t.status = .seated then
      .ok (updTable st tid (fun u => { u with status := .dirty, seated_at := none }))
    else .error .Conflict

/-- Modelled from the spec: `clear(tableId)` (section 4.5): requires

status=dirty, transitions to free, clears server and notes; Conflict

otherwise. -/
def clearTable (st : FloorState) (tid : String) : Except Err FloorState :=
  match findTable st tid with
  | none => .error .NotFound
  | some t =>
    if t.status = .dirty then
      .ok (updTable st tid (fun u => { u with status := .free, server := none, notes := "" }))
    else .error .Conflict

/-- Modelled from the spec: `addWait(name, party, notes)` (sections 4.2

and 4.5): succeeds iff name non-empty and party ≥ 1, enqueueing at the

tail with a fresh never-reused id. -/
def addWait (st : FloorState) (name : String) (party : Nat) (notes : String)
    (now : Nat) : Except Err FloorState :=
  if name ≠ "" ∧ party ≥ 1 then
    .ok { st with
          waitlist := st.waitlist ++
            [{ id := st.nextWaitId, name := name, party := party,
               notes := notes, added_at := now }],
          nextWaitId := st.nextWaitId + 1 }
  else .error .InvalidInput

/-- Modelled from the spec: `removeWait(id)` (sections 4.2 and 4.5):

always succeeds; removing a non-existent id is a no-op. -/
def removeWait (st : FloorState) (wid : Nat) : FloorState :=
  { st with waitlist := st.waitlist.filter (fun w => w.id != wid) }

/-- Parse a rotation mode string; unrecognized strings are rejected. -/
def parseRotation : String → Option RotationMode
  | "round_robin" => some .round_robin
  | "least_loaded" => some .least_loaded
  | _ => none

/-- Modelled from the spec: `setRotation(mode)` (section 4.5): fails with

InvalidInput for unrecognized mode strings. -/
def setRotation (st : FloorState) (mode : String) : Except Err FloorState :=
  match parseRotation mode with
  | none => .error .InvalidInput
  | some m => .ok { st with rotation := m }

/-- A table counts toward its server's load while status ∈ \x7bseated,

dirty\x7d (spec section 3). -/
def countsToward : TableStatus → Bool
  | .seated => true
  | .dirty => true
  | .free => false
  | .waiting => false

/-- Modelled from the spec: derived server load (section 4.3), computed

live from the table registry. -/
def loadOf (st : FloorState) (name : String) : Nat :=
  (st.tables.filter (fun t => countsToward t.status && t.server == some name)).length

/-- Least-loaded preference: `a` beats `b` when its load is strictly

smaller, with ties broken by lexicographic name (section 4.4). -/
def betterLL (loads : String → Nat) (a b : String) : Bool :=
  loads a < loads b || (loads a == loads b && a < b)

/-- Round-robin preference over an explicit recency list (most recent

first; absent = never suggested): `a` beats `b` when it was suggested

less recently, with ties broken by load then name (section 4.4). -/
def betterRR (recent : List String) (loads : String → Nat) (a b : String) : Bool :=
  recent.indexOf b < recent.indexOf a ||
    (recent.indexOf a == recent.indexOf b && betterLL loads a b)

/-- Modelled from the spec: the pure Load Balancer `suggest(servers,

loads, mode)` (section 4.4, code not in `src/`); the round-robin recency

list is the only extra state the rotation mode explicitly models.

Returns `none` on an empty roster. -/
def suggest (servers : List String) (loads : String → Nat)
    (mode : RotationMode) (recent : List String) : Option String :=
  match servers with
  | [] => none
  | x :: xs =>
    match mode with
    | .least_loaded =>
      some (xs.foldl (fun b s => if betterLL loads s b then s else b) x)
    | .round_robin =>
      some (xs.foldl (fun b s => if betterRR recent loads s b then s else b) x)

/-- The Floor Coordinator's mutating commands (section 4.5). -/
inductive Op
  | seat (tid : String) (waitId : Option Nat) (server : Option String)
      (notes : Option String) (now : Nat)
  | bus (tid : String)
  | clear (tid : String)
  | addWait (name : String) (party : Nat) (notes : String) (now : Nat)
  | removeWait (wid : Nat)
  | setRotation (mode : String)
deriving DecidableEq, Repr

/-- Dispatch one command against the floor state. -/
def applyOp : Op → FloorState → Except Err FloorState
  | .seat tid w s n now, st => seatTable st tid w s n now
  | .bus tid, st => busTable st tid
  | .clear tid, st => clearTable st tid
  | .addWait n p nt now, st => addWait st n p nt now
  | .removeWait w, st => .ok (removeWait st w)
  | .setRotation m, st => setRotation st m

/-- Run one command: a rejected command leaves the state untouched

(section 7: no partial mutation is ever observable). -/
def runOp (op : Op) (st : FloorState) : FloorState :=
  match applyOp op st with
  | .ok st' => st'
  | .error _ => st

/-- Run a sequence of commands. -/
def runOps (ops : List Op) (st : FloorState) : FloorState :=
  ops.foldl (fun s op => runOp op s) st

/-- The waitlist entries one command enqueues: a valid addWait enqueues

exactly the entry addWait builds (same guard and fields as `addWait`);

every other command enqueues nothing.  Computed from the command and the

pre-state only, never from the resulting waitlist. -/
def addedOf (op : Op) (st : FloorState) : List WaitEntry :=
  match op with
  | .addWait name party notes now =>
    if name ≠ "" ∧ party ≥ 1 then
      [{ id := st.nextWaitId, name := name, party := party, notes := notes,
         added_at := now }]
    else []
  | _ => []

/-- All entries a command sequence enqueues, in command (insertion)

order (spec section 4.2: insertion order is the serving priority). -/
def addedEntries : List Op → FloorState → List WaitEntry
  | [], _ => []
  | op :: ops, st => addedOf op st ++ addedEntries ops (runOp op st)

/-- `formatDuration` from `static/script.js` lines 24-32.  A falsy

argument (null / undefined / empty string) is modelled as `none`; a valid

ISO string is modelled by the instant it denotes, in milliseconds.

`Math.floor` division is `Int.fdiv`, the JS `%` operator is `Int.tmod`. -/
def formatDuration (iso : Option Int) (now : Int) : String :=
  match iso with
  | none => ""
  | some t =>
    let diff := (now - t).fdiv 1000
    let m := diff.fdiv 60
    let s := diff.tmod 60
    toString m ++ "m " ++ toString s ++ "s"

/-- The list-item text built for one waitlist entry by `renderWaitlist`

in `static/script.js` line 45 (markup quoting abbreviated; the entry

fields appear in source order). -/
def renderEntryHtml (now : Int) (w : WaitEntry) : String :=
  "<strong>" ++ w.name ++ "</strong> · " ++ toString w.party ++ " • " ++
    w.notes ++ " Waiting: " ++ formatDuration (some (w.added_at : Int)) now

/-- `renderWaitlist` from `static/script.js` lines 34-52: the DOM list is

cleared and one child is appended per waitlist entry, in the order of

`state.waitlist`. -/
def renderWaitlist (now : Int) (wl : List WaitEntry) : List String :=
  wl.foldl (fun dom w => dom ++ [renderEntryHtml now w]) []

/-- Example fixture: a seated table with an assigned server. -/
def exSeated : Table :=
  { id := "T1", name := "Table 1", sectionName := "A", seats := 4,
    status := .seated, server := some "Alice", seated_at := some 100, notes := "" }

/-- Example fixture: a free unassigned table. -/
def exFree : Table :=
  { id := "T2", name := "Table 2", sectionName := "A", seats := 2,
    status := .free, server := none, seated_at := none, notes := "" }

/-- Example fixture: one waitlist entry. -/
def exWait : WaitEntry :=
  { id := 1, name := "Smith", party := 4, notes := "", added_at := 0 }

/-- Example fixture: a small floor state. -/
def exState : FloorState :=
  { tables := [exSeated, exFree], waitlist := [exWait],
    servers := ["Ann", "Bob"], rotation := .least_loaded, nextWaitId := 2 }

/-- Example fixture: a load mapping for the load-balancer witnesses. -/
def exLoads : String → Nat :=
  fun s => if s = "A" then 0 else 2

/-- The seated_at / status invariant of spec section 3 for one table. -/
def tableInv (t : Table) : Prop :=
  t.seated_at.isSome ↔ t.status = .seated

/-- The invariant holds for every table on the floor. -/
def stateInv (st : FloorState) : Prop :=
  ∀ t ∈ st.tables, tableInv t

instance : DecidablePred tableInv := fun t => by
  unfold tableInv; infer_instance

instance (st : FloorState) : Decidable (stateInv st) := by
  unfold stateInv; infer_instance

/-- Every table of `updFirst f tid ts` is either an untouched element of

`ts` or the image under `f` of the first table matching `tid`. -/
theorem mem_updFirst {f : Table → Table} {tid : String} {ts : List Table}
    {u : Table} (h : u ∈ updFirst f tid ts) :
    u ∈ ts ∨ ∃ t, ts.find? (fun x => x.id == tid) = some t ∧ u = f t := by
  induction ts with
  | nil => simp [updFirst] at h
  | cons a l ih =>
    by_cases ha : (a.id == tid) = true
    · rw [updFirst, if_pos ha] at h
      rcases List.mem_cons.mp h with h1 | h1
      · exact Or.inr ⟨a, by simp [List.find?_cons, ha], h1⟩
      · exact Or.inl (List.mem_cons_of_mem _ h1)
    · rw [updFirst, if_neg ha] at h
      rcases List.mem_cons.mp h with h1 | h1
      · exact Or.inl (h1 ▸ List.mem_cons_self a l)
      · rcases ih h1 with h2 | ⟨t, ht, hu⟩
        · exact Or.inl (List.mem_cons_of_mem _ h2)
        · refine Or.inr ⟨t, ?_, hu⟩
          simp only [List.find?_cons, ha]
          exact ht

/-- When `f` preserves ids, updating the first match commutes with

looking it up. -/
theorem find?_updFirst {f : Table → Table} {tid : String}
    (hid : ∀ x, (f x).id = x.id) :
    ∀ {ts : List Table} {t : Table}, ts.find? (fun x => x.id == tid) = some t →
      (updFirst f tid ts).find? (fun x => x.id == tid) = some (f t) := by
  intro ts
  induction ts with
  | nil => intro t h; simp at h
  | cons a l ih =>
    intro t h
    by_cases ha : (a.id == tid) = true
    · simp only [List.find?_cons, ha] at h
      injection h with h
      subst h
      rw [updFirst, if_pos ha]
      simp [List.find?_cons, hid a, ha]
    · simp only [List.find?_cons, ha] at h
      rw [updFirst, if_neg ha]
      simp only [List.find?_cons, ha]
      exact ih h

/-- C1: a seat operation whose waitlist id no longer exists fails with

NotFound, and running it leaves the whole floor state — the target table

and every waitlist entry included — unchanged (given that the table

itself exists and is in a seatable status, the preconditions checked

before the dequeue). -/
theorem seat_missing_wait_notfound (st : FloorState) (tid : String) (w : Nat)
    (srv : Option String) (nts : Option String) (now : Nat) (t : Table)
    (ht : findTable st tid = some t) (hs : seatable t.status = true)
    (hw : st.waitlist.find? (fun x => x.id == w) = none) :
    seatTable st tid (some w) srv nts now = .error .NotFound ∧
      runOp (.seat tid (some w) srv nts now) st = st := by
  have h1 : seatTable st tid (some w) srv nts now = .error .NotFound := by
    unfold seatTable
    rw [ht]
    simp [hs, dequeueWait, hw]
  exact ⟨h1, by simp only [runOp, applyOp, h1]⟩

/-- C1 witness. -/
theorem seat_missing_wait_notfound_witness :
    seatTable exState "T2" (some 99) none none 5 = .error .NotFound ∧
      runOp (.seat "T2" (some 99) none none 5) exState = exState :=
  seat_missing_wait_notfound exState "T2" 99 none none 5 exFree
    (by decide) (by decide) (by decide)

/-- C4: clearing a table whose status is not dirty fails with Conflict

and leaves the floor state unchanged. -/
theorem clear_not_dirty_conflict (st : FloorState) (tid : String) (t : Table)
    (ht : findTable st tid = some t) (hs : t.status ≠ .dirty) :
    clearTable st tid = .error .Conflict ∧ runOp (.clear tid) st = st := by
  have h1 : clearTable st tid = .error .Conflict := by
    simp only [clearTable, ht]
    rw [if_neg hs]
  exact ⟨h1, by simp only [runOp, applyOp, h1]⟩

/-- C4 witness. -/
theorem clear_not_dirty_conflict_witness :
    clearTable exState "T2" = .error .Conflict ∧
      runOp (.clear "T2") exState = exState :=
  clear_not_dirty_conflict exState "T2" exFree (by decide) (by decide)

/-- C3: on a seated table, bus followed by clear succeeds and yields

status = free and server = null, regardless of the prior server

assignment. -/
theorem bus_then_clear_free (st : FloorState) (tid : String) (t : Table)
    (ht : findTable st tid = some t) (hs : t.status = .seated) :
    ∃ st1 st2 t2, busTable st tid = .ok st1 ∧ clearTable st1 tid = .ok st2 ∧
      findTable st2 tid = some t2 ∧ t2.status = .free ∧ t2.server = none := by
  have h1 : busTable st tid =
      .ok (updTable st tid (fun u => { u with status := .dirty, seated_at := none })) := by
    simp only [busTable, ht]
    rw [if_pos hs]
  have hf1 : findTable (updTable st tid (fun u => { u with status := .dirty, seated_at := none })) tid
      = some { t with status := .dirty, seated_at := none } :=
    find?_updFirst (f := fun u => { u with status := .dirty, seated_at := none })
      (fun x => rfl) ht
  have h2 : clearTable (updTable st tid (fun u => { u with status := .dirty, seated_at := none })) tid
      = .ok (updTable (updTable st tid (fun u => { u with status := .dirty, seated_at := none })) tid
          (fun u => { u with status := .free, server := none, notes := "" })) := by
    simp [clearTable, hf1]
  have hf2 := find?_updFirst (f := fun u => { u with status := .free, server := none, notes := "" })
    (fun x => rfl) hf1
  exact ⟨_, _, _, h1, h2, hf2, rfl, rfl⟩

/-- C3 witness. -/
theorem bus_then_clear_free_witness :
    ∃ st1 st2 t2, busTable exState "T1" = .ok st1 ∧
      clearTable st1 "T1" = .ok st2 ∧
      findTable st2 "T1" = some t2 ∧ t2.status = .free ∧ t2.server = none :=
  bus_then_clear_free exState "T1" exSeated (by decide) (by decide)

/-- C2: every successful floor operation preserves the invariant that a

table's seated_at is present iff its status is seated. -/
theorem op_preserves_seated_at_inv (op : Op) (st st' : FloorState)
    (hinv : stateInv st) (h : applyOp op st = .ok st') : stateInv st' := by
  cases op with
  | seat tid w srv nts now =>
    simp only [applyOp] at h
    unfold seatTable at h
    split at h
    · simp at h
    · next t heq =>
      split at h
      · split at h
        · injection h with h
          subst h
          intro u hu
          rcases mem_updFirst hu with h1 | ⟨t0, _, rfl⟩
          · exact hinv u h1
          · simp [tableInv, seatFields]
        · unfold dequeueWait at h
          split at h
          · simp at h
          · injection h with h
            subst h
            intro u hu
            rcases mem_updFirst hu with h1 | ⟨t0, _, rfl⟩
            · exact hinv u h1
            · simp [tableInv, seatFields]
      · simp at h
  | bus tid =>
    simp only [applyOp] at h
    unfold busTable at h
    split at h
    · simp at h
    · next t heq =>
      split at h
      · injection h with h
        subst h
        intro u hu
        rcases mem_updFirst hu with h1 | ⟨t0, _, rfl⟩
        · exact hinv u h1
        · simp [tableInv]
      · simp at h
  | clear tid =>
    simp only [applyOp] at h
    unfold clearTable at h
    split at h
    · simp at h
    · next t heq =>
      split at h
      · next hdirty =>
        injection h with h
        subst h
        intro u hu
        rcases mem_updFirst hu with h1 | ⟨t0, hfind0, rfl⟩
        · exact hinv u h1
        · have ht0 : t0 = t := by
            have h2 := hfind0.symm.trans heq
            injection h2
          subst ht0
          have hmem : t0 ∈ st.tables := List.mem_of_find?_eq_some hfind0
          have hnone : t0.seated_at = none := by
            have h3 := hinv t0 hmem
            rw [tableInv, hdirty] at h3
            cases hsa : t0.seated_at with
            | none => rfl
            | some v => rw [hsa] at h3; simp at h3
          simp [tableInv, hnone]
      · simp at h
  | addWait n p nt now =>
    simp only [applyOp] at h
    unfold addWait at h
    split at h
    · injection h with h
      subst h
      exact hinv
    · simp at h
  | removeWait wid =>
    simp only [applyOp] at h
    injection h with h
    subst h
    exact hinv
  | setRotation m =>
    simp only [applyOp] at h
    unfold setRotation at h
    split at h
    · simp at h
    · injection h with h
      subst h
      exact hinv

/-- C2 witness. -/
theorem op_preserves_seated_at_inv_witness :
    stateInv (removeWait exState 1) :=
  op_preserves_seated_at_inv (.removeWait 1) exState (removeWait exState 1)
    (by decide) rfl

/-- C5: removeWait always succeeds — also on an absent id — and is

idempotent: a second removal of the same id is a no-op success. -/
theorem removeWait_idempotent :
    ∀ (st : FloorState) (wid : Nat),
      applyOp (.removeWait wid) st = .ok (removeWait st wid) ∧
        removeWait (removeWait st wid) wid = removeWait st wid := by
  intro st wid
  refine ⟨rfl, ?_⟩
  simp [removeWait, List.filter_filter]

/-- Characterization of the Bool-valued least-loaded preference. -/
theorem betterLL_true_iff (loads : String → Nat) (a b : String) :
    betterLL loads a b = true ↔
      (loads a < loads b ∨ (loads a = loads b ∧ a < b)) := by
  unfold betterLL
  simp [Bool.or_eq_true, Bool.and_eq_true, beq_iff_eq, decide_eq_true_eq]

/-- Transitivity of the load-then-name order. -/
theorem llLE_trans {loads : String → Nat} {a b c : String}
    (h1 : loads a < loads b ∨ (loads a = loads b ∧ a ≤ b))
    (h2 : loads b < loads c ∨ (loads b = loads c ∧ b ≤ c)) :
    loads a < loads c ∨ (loads a = loads c ∧ a ≤ c) := by
  rcases h1 with h1 | ⟨h1, h1b⟩ <;> rcases h2 with h2 | ⟨h2, h2b⟩
  · exact Or.inl (h1.trans h2)
  · exact Or.inl (lt_of_lt_of_eq h1 h2)
  · exact Or.inl (lt_of_eq_of_lt h1 h2)
  · exact Or.inr ⟨h1.trans h2, le_trans h1b h2b⟩

/-- The least-loaded fold returns an element of its inputs that is

minimal for the load-then-name order. -/
theorem pick_spec (loads : String → Nat) :
    ∀ (xs : List String) (x : String),
      (xs.foldl (fun b s => if betterLL loads s b then s else b) x = x ∨
        xs.foldl (fun b s => if betterLL loads s b then s else b) x ∈ xs) ∧
      (∀ t, t = x ∨ t ∈ xs →
        loads (xs.foldl (fun b s => if betterLL loads s b then s else b) x) < loads t ∨
          (loads (xs.foldl (fun b s => if betterLL loads s b then s else b) x) = loads t ∧
            xs.foldl (fun b s => if betterLL loads s b then s else b) x ≤ t)) := by
  intro xs
  induction xs with
  | nil =>
    intro x
    refine ⟨Or.inl rfl, ?_⟩
    rintro t (rfl | ht)
    · exact Or.inr ⟨rfl, le_refl t⟩
    · simp at ht
  | cons s rest ih =>
    intro x
    simp only [List.foldl_cons]
    obtain ⟨ihmem, ihmin⟩ := ih (if betterLL loads s x then s else x)
    have hfx' := ihmin (if betterLL loads s x then s else x) (Or.inl rfl)
    have hx'x : loads (if betterLL loads s x then s else x) < loads x ∨
        (loads (if betterLL loads s x then s else x) = loads x ∧
          (if betterLL loads s x then s else x) ≤ x) := by
      by_cases hb : betterLL loads s x = true
      · rw [if_pos hb]
        rcases (betterLL_true_iff loads s x).mp hb with hb1 | ⟨hb1, hb2⟩
        · exact Or.inl hb1
        · exact Or.inr ⟨hb1, le_of_lt hb2⟩
      · rw [if_neg hb]
        exact Or.inr ⟨rfl, le_refl x⟩
    have hx's : loads (if betterLL loads s x then s else x) < loads s ∨
        (loads (if betterLL loads s x then s else x) = loads s ∧
          (if betterLL loads s x then s else x) ≤ s) := by
      by_cases hb : betterLL loads s x = true
      · rw [if_pos hb]
        exact Or.inr ⟨rfl, le_refl s⟩
      · rw [if_neg hb]
        rw [betterLL_true_iff] at hb
        push_neg at hb
        obtain ⟨hb1, hb2⟩ := hb
        rcases Nat.lt_or_ge (loads x) (loads s) with hlt | hge
        · exact Or.inl hlt
        · have heq : loads x = loads s := le_antisymm hb1 hge
          exact Or.inr ⟨heq, hb2 heq.symm⟩
    refine ⟨?_, ?_⟩
    · rcases ihmem with h1 | h1
      · rw [h1]
        by_cases hb : betterLL loads s x = true
        · rw [if_pos hb]
          exact Or.inr (List.mem_cons_self s rest)
        · rw [if_neg hb]
          exact Or.inl rfl
      · exact Or.inr (List.mem_cons_of_mem _ h1)
    · rintro t (rfl | ht)
      · exact llLE_trans hfx' hx'x
      · rcases List.mem_cons.mp ht with rfl | ht2
        · exact llLE_trans hfx' hx's
        · exact ihmin t (Or.inr ht2)

/-- C6: on the empty roster suggest returns null for every mode; on a

non-empty roster, least_loaded returns a roster member whose load is ≤

every other server's load, with load ties broken toward the

lexicographically smallest name. -/
theorem suggest_least_loaded_min :
    (∀ (loads : String → Nat) (mode : RotationMode) (recent : List String),
        suggest [] loads mode recent = none) ∧
    (∀ (servers : List String) (loads : String → Nat) (recent : List String),
        servers ≠ [] →
        ∃ m, suggest servers loads .least_loaded recent = some m ∧ m ∈ servers ∧
          ∀ t ∈ servers, loads m ≤ loads t ∧ (loads m = loads t → m ≤ t)) := by
  constructor
  · intro loads mode recent
    rfl
  · intro servers loads recent hne
    cases servers with
    | nil => exact absurd rfl hne
    | cons x xs =>
      obtain ⟨hmem, hmin⟩ := pick_spec loads xs x
      refine ⟨_, rfl, ?_, ?_⟩
      · rcases hmem with h | h
        · rw [h]
          exact List.mem_cons_self x xs
        · exact List.mem_cons_of_mem _ h
      · intro t ht
        have hto := hmin t
          (by rcases List.mem_cons.mp ht with rfl | h; exacts [Or.inl rfl, Or.inr h])
        rcases hto with h | ⟨h1, h2⟩
        · exact ⟨le_of_lt h, fun he => by omega⟩
        · exact ⟨le_of_eq h1, fun _ => h2⟩

/-- C6 witness. -/
theorem suggest_least_loaded_min_witness :
    ∃ m, suggest ["B", "A"] exLoads .least_loaded [] = some m ∧ m ∈ ["B", "A"] ∧
      ∀ t ∈ ["B", "A"], exLoads m ≤ exLoads t ∧ (exLoads m = exLoads t → m ≤ t) :=
  suggest_least_loaded_min.2 ["B", "A"] exLoads [] (by decide)

/-- C7: suggest is a pure function of servers, loads, mode and the

recency list the rotation mode explicitly models — identical inputs give

identical suggestions, with no hidden mutable state. -/
theorem suggest_deterministic (s1 s2 : List String) (l1 l2 : String → Nat)
    (m1 m2 : RotationMode) (r1 r2 : List String)
    (hs : s1 = s2) (hl : l1 = l2) (hm : m1 = m2) (hr : r1 = r2) :
    suggest s1 l1 m1 r1 = suggest s2 l2 m2 r2 := by
  subst hs
  subst hl
  subst hm
  subst hr
  rfl

/-- C7 witness. -/
theorem suggest_deterministic_witness :
    suggest ["Ann", "Bob"] exLoads .round_robin [] =
      suggest ["Ann", "Bob"] exLoads .round_robin [] :=
  suggest_deterministic ["Ann", "Bob"] ["Ann", "Bob"] exLoads exLoads
    .round_robin .round_robin [] [] rfl rfl rfl rfl

/-- A successful operation either only filters the waitlist (keeping the

survivors in their old order) or appends exactly the entries `addedOf`

says it enqueues. -/
theorem applyOp_waitlist_shrink_or_append (op : Op) (st st' : FloorState)
    (h : applyOp op st = .ok st') :
    List.Sublist st'.waitlist st.waitlist ∨
      st'.waitlist = st.waitlist ++ addedOf op st := by
  cases op with
  | seat tid w srv nts now =>
    simp only [applyOp] at h
    unfold seatTable at h
    split at h
    · simp at h
    · split at h
      · split at h
        · injection h with h
          subst h
          exact Or.inl (List.Sublist.refl _)
        · unfold dequeueWait at h
          split at h
          · simp at h
          · next w0 wl heq =>
            injection h with h
            subst h
            split at heq
            · simp at heq
            · injection heq with heq
              cases heq
              exact Or.inl (List.filter_sublist _)
      · simp at h
  | bus tid =>
    simp only [applyOp] at h
    unfold busTable at h
    split at h
    · simp at h
    · split at h
      · injection h with h
        subst h
        exact Or.inl (List.Sublist.refl _)
      · simp at h
  | clear tid =>
    simp only [applyOp] at h
    unfold clearTable at h
    split at h
    · simp at h
    · split at h
      · injection h with h
        subst h
        exact Or.inl (List.Sublist.refl _)
      · simp at h
  | addWait n p nt now =>
    simp only [applyOp] at h
    unfold addWait at h
    split at h
    · next hcond =>
      injection h with h
      subst h
      refine Or.inr ?_
      simp only [addedOf]
      rw [if_pos hcond]
    · simp at h
  | removeWait wid =>
    simp only [applyOp] at h
    injection h with h
    subst h
    exact Or.inl (List.filter_sublist _)
  | setRotation m =>
    simp only [applyOp] at h
    unfold setRotation at h
    split at h
    · simp at h
    · injection h with h
      subst h
      exact Or.inl (List.Sublist.refl _)

/-- One `runOp` step keeps the waitlist a subsequence of the old

waitlist followed by the entries that very command enqueues (a rejected

command changes nothing and enqueues nothing). -/
theorem runOp_waitlist_step (op : Op) (st : FloorState) :
    List.Sublist (runOp op st).waitlist (st.waitlist ++ addedOf op st) := by
  rcases h : applyOp op st with e | st'
  · simp only [runOp, h]
    exact List.sublist_append_left _ _
  · simp only [runOp, h]
    rcases applyOp_waitlist_shrink_or_append op st st' h with h1 | h1
    · exact h1.trans (List.sublist_append_left _ _)
    · rw [h1]

/-- Across any command sequence the surviving waitlist entries stay in

insertion order: the final waitlist is a subsequence of the initial

waitlist followed by `addedEntries` — the entries the commands enqueued,

in command order, computed from the commands alone. -/
theorem runOps_waitlist_fifo :
    ∀ (ops : List Op) (st : FloorState),
      List.Sublist (runOps ops st).waitlist (st.waitlist ++ addedEntries ops st) := by
  intro ops
  induction ops with
  | nil =>
    intro st
    exact List.sublist_append_left _ _
  | cons op ops ih =>
    intro st
    have h1 := runOp_waitlist_step op st
    have h2 := ih (runOp op st)
    have h3 : List.Sublist ((runOp op st).waitlist ++ addedEntries ops (runOp op st))
        ((st.waitlist ++ addedOf op st) ++ addedEntries ops (runOp op st)) :=
      h1.append_right _
    rw [List.append_assoc] at h3
    exact h2.trans h3

/-- Folding DOM appends over a list renders it element-wise in order. -/
theorem foldl_append_singleton (g : WaitEntry → String) :
    ∀ (l : List WaitEntry) (acc : List String),
      l.foldl (fun d w => d ++ [g w]) acc = acc ++ l.map g := by
  intro l
  induction l with
  | nil =>
    intro acc
    simp
  | cons w l ih =>
    intro acc
    simp [ih]

/-- C8: under any sequence of floor commands the waitlist keeps

insertion (FIFO) order and no entry is ever reordered: the final

waitlist is a subsequence of the initial waitlist followed by

`addedEntries ops st`, the entries the commands enqueued in command

order (determined by the commands and pre-states alone, not by the final

waitlist) — and the client renders exactly one item per entry, in the

order of the state's waitlist. -/
theorem waitlist_fifo_order :
    (∀ (ops : List Op) (st : FloorState),
        List.Sublist (runOps ops st).waitlist (st.waitlist ++ addedEntries ops st)) ∧
    (∀ (now : Int) (wl : List WaitEntry),
        renderWaitlist now wl = wl.map (renderEntryHtml now)) := by
  constructor
  · exact runOps_waitlist_fifo
  · intro now wl
    simpa using foldl_append_singleton (renderEntryHtml now) wl []

/-- Casting a floor of a nonnegative division by 1000 to Nat division. -/
theorem fdiv_cast_thousand (a : Nat) :
    ((a : Int)).fdiv 1000 = ((a / 1000 : Nat) : Int) := by
  cases a <;> rfl

/-- Casting a floor of a nonnegative division by 60 to Nat division. -/
theorem fdiv_cast_sixty (a : Nat) :
    ((a : Int)).fdiv 60 = ((a / 60 : Nat) : Int) := by
  cases a <;> rfl

/-- The JS remainder of a nonnegative value by 60 is the Nat remainder. -/
theorem tmod_cast_sixty (a : Nat) :
    ((a : Int)).tmod 60 = ((a % 60 : Nat) : Int) := rfl

/-- Printing a Nat cast to Int prints the Nat. -/
theorem toString_natCast (n : Nat) : toString ((n : Nat) : Int) = toString n := rfl

/-- C9: for a timestamp no later than now, formatDuration returns

"Mm Ss" where, with d = floor of the elapsed milliseconds over 1000,

M = d / 60 and S = d % 60 — derived solely from the entry's creation

timestamp and the current time. -/
theorem formatDuration_elapsed (t now : Nat) (h : t ≤ now) :
    formatDuration (some (t : Int)) (now : Int) =
      toString ((now - t) / 1000 / 60) ++ "m " ++
        toString ((now - t) / 1000 % 60) ++ "s" := by
  have hsub : (now : Int) - t = ((now - t : Nat) : Int) := by omega
  show toString ((((now : Int) - t).fdiv 1000).fdiv 60) ++ "m " ++
      toString ((((now : Int) - t).fdiv 1000).tmod 60) ++ "s" = _
  rw [hsub, fdiv_cast_thousand, fdiv_cast_sixty, tmod_cast_sixty,
    toString_natCast, toString_natCast]

/-- C9 witness. -/
theorem formatDuration_elapsed_witness :
    formatDuration (some ((0 : Nat) : Int)) ((90000 : Nat) : Int) =
      toString ((90000 - 0) / 1000 / 60) ++ "m " ++
        toString ((90000 - 0) / 1000 % 60) ++ "s" :=
  formatDuration_elapsed 0 90000 (by decide)

/-- C10: a falsy timestamp argument (null, undefined or the empty

string, all modelled as `none`) makes formatDuration return the empty

string — no duration and no error. -/
theorem formatDuration_falsy_empty : ∀ now : Int, formatDuration none now = "" :=
  fun _ => rfl

end HostSite
